import Mathlib

/-!
# Verification of `examples/BERT/pipeline.py`

A shallow embedding of the RPC pipeline-parallel execution engine:

* `SingleProcessPipeline` / `SingleProcessPipelineRPC` — local sequential
  pipelines built by interleaving shard modules with `ToDevice` adapters;
* `RemoteBaseCPURPC` / `RemoteBaseCUDARPC` — the two remote shard-actor
  variants, whose `forward` bodies are embedded as straight-line programs in
  a small trace monad `Tr` (each primitive logs an event, the Python
  `with self._lock:` block is `withLock`, which releases on every exit path);
* a lock automaton (`Step` / `Reachable`) giving interleaving semantics to
  the `with self._lock:` critical section under overlapping invocations;
* `RPCPipeline` — micro-batch split / chained remote forward / collective
  await, with an explicit completion schedule so that order-preservation
  claims can quantify over the order in which futures complete.

Tensors are modelled as lists of `Int` rows (batches) or single `Int`
payloads tagged with a `Device` (actor-level values); each shard's numeric
computation is an opaque function, possibly failing (`Except`).
-/

/-- An execution context: the host (`cpu`) or an accelerator (`cuda i`).
Mirrors the `device` strings/objects passed around in `pipeline.py`. -/
inductive Device : Type
  | cpu : Device
  | cuda : Nat → Device
deriving DecidableEq, Repr, Inhabited

/-- A realized tensor value: an opaque payload together with the device it
is currently bound to.  `x.to(d)` keeps the payload and rebinds the device. -/
structure TVal : Type where
  v : Int
  dev : Device
deriving DecidableEq, Repr

/-- A pending-value handle (`RRef`) holding a realized value; `to_here`
realizes it.  (Chains of unfinished remote results are modelled separately,
at the `RPCPipeline` level, as `Except` computations.) -/
structure RRefV : Type where
  get : TVal
deriving DecidableEq, Repr

/-- Observable events of one stage-level `forward` call, in program order:
realization (`x_rref.to_here()`), relocation (`.to(device)`), lock
acquisition/release (`with self._lock:`), the wrapped computation
(`self.underlying(x)`), and relocation to host (`out.cpu()`). -/
inductive Ev : Type
  | toHere : Ev
  | toDevice : Device → Ev
  | acquire : Ev
  | compute : Ev
  | release : Ev
  | toCPU : Ev
deriving DecidableEq, Repr

/-- Result of a traced, fallible computation: the list of events it emitted
(in order) and its `Except` outcome. -/
structure Tr (ε α : Type) : Type where
  trace : List Ev
  res : Except ε α

/-- Sequencing in the trace monad: on failure the continuation never runs
and emits nothing (a raised exception aborts the rest of the body). -/
def bindTr {ε α β : Type} (t : Tr ε α) (f : α → Tr ε β) : Tr ε β :=
  match t.res with
  | Except.error e => ⟨t.trace, Except.error e⟩
  | Except.ok a =>
      let u := f a
      ⟨t.trace ++ u.trace, u.res⟩

/-- `with self._lock:` — acquire, run the body, release.  The release event
is emitted on every exit path, including when the body fails: Python's
`with` statement releases the lock before the exception propagates. -/
def withLock {ε α : Type} (t : Tr ε α) : Tr ε α :=
  ⟨Ev.acquire :: t.trace ++ [Ev.release], t.res⟩

/-- `x_rref.to_here()`: realize the pending input. -/
def toHereOp {ε : Type} (x : RRefV) : Tr ε TVal :=
  ⟨[Ev.toHere], Except.ok x.get⟩

/-- `x.to(d)`: relocate a realized value to device `d`. -/
def toOp {ε : Type} (x : TVal) (d : Device) : Tr ε TVal :=
  ⟨[Ev.toDevice d], Except.ok ⟨x.v, d⟩⟩

/-- `out.cpu()`: relocate the result to the host-accessible context. -/
def cpuOp {ε : Type} (x : TVal) : Tr ε TVal :=
  ⟨[Ev.toCPU], Except.ok ⟨x.v, Device.cpu⟩⟩

/-- `self.underlying(x)`: run the wrapped computation unit.  The unit was
bound to `dev` at construction, so a successful output is bound to `dev`;
the unit itself may raise (`Except.error`). -/
def computeOp {ε : Type} (f : Int → Except ε Int) (dev : Device) (x : TVal) : Tr ε TVal :=
  ⟨[Ev.compute], (f x.v).map (fun y => ⟨y, dev⟩)⟩

/-- A remote shard actor's state after construction
(`underlying.to(device)` already performed): the wrapped computation unit
and the device it is bound to.  Both `RemoteBaseCPURPC` and
`RemoteBaseCUDARPC` construct this way. -/
structure RemoteBase (ε : Type) : Type where
  f : Int → Except ε Int
  device : Device

namespace RemoteBaseCPURPC

/-- `RemoteBaseCPURPC.forward`:
`x = x_rref.to_here().to(self.device); with self._lock: out = self.underlying(x); return out.cpu()`. -/
def forward {ε : Type} (m : RemoteBase ε) (x_rref : RRefV) : Tr ε TVal :=
  bindTr (toHereOp x_rref) fun x0 =>
  bindTr (toOp x0 m.device) fun x =>
  bindTr (withLock (computeOp m.f m.device x)) fun out =>
  cpuOp out

end RemoteBaseCPURPC

namespace RemoteBaseCUDARPC

/-- `RemoteBaseCUDARPC.forward`:
`with self._lock: return self.underlying(x_rref.to_here())` — note that the
realization `to_here` happens inside the lock. -/
def forward {ε : Type} (m : RemoteBase ε) (x_rref : RRefV) : Tr ε TVal :=
  withLock (bindTr (toHereOp x_rref) fun x => computeOp m.f m.device x)

end RemoteBaseCUDARPC

/-- Position of the first occurrence of event `e` in a trace. -/
def posOf (e : Ev) (l : List Ev) : Nat :=
  match l with
  | [] => 0
  | a :: l' => if a = e then 0 else posOf e l' + 1

/-!
## Interleaving semantics of the per-stage lock

Every stage class (`SingleProcessPipelineRPC`, `RemoteBaseCPURPC`,
`RemoteBaseCUDARPC`) guards its wrapped computation with the same
`with self._lock:` pattern on a per-instance `threading.Lock`.  We model
`n` overlapping invocations of one stage instance as `n` threads, each
executing: wait for the lock, run the critical section (which either
returns normally or raises, chosen by `fails`), release, and either return
or propagate the error.  `threading.Lock.acquire` is atomic and blocks
while the lock is held; `with` releases on both exit paths.
-/

/-- Phase of one invocation of a stage's `forward`. -/
inductive TPhase : Type
  | waiting : TPhase
  | crit : TPhase
  | doneOk : TPhase
  | failed : TPhase
deriving DecidableEq, Repr

/-- Shared state of a stage instance under `n` overlapping invocations:
who (if anyone) holds the per-instance lock, and each invocation's phase. -/
structure StageState (n : Nat) : Type where
  lockHeld : Option (Fin n)
  threads : Fin n → TPhase

/-- One atomic step of the interleaved system.  `acquire` can only fire
when the lock is free; both exits of the `with` block release the lock,
`exitFail` being the path where `self.underlying(x)` raised. -/
inductive Step {n : Nat} (fails : Fin n → Bool) : StageState n → StageState n → Prop
  | acquire (s : StageState n) (i : Fin n)
      (hw : s.threads i = TPhase.waiting) (hl : s.lockHeld = none) :
      Step fails s ⟨some i, Function.update s.threads i TPhase.crit⟩
  | exitOk (s : StageState n) (i : Fin n)
      (hc : s.threads i = TPhase.crit) (hf : fails i = false) :
      Step fails s ⟨none, Function.update s.threads i TPhase.doneOk⟩
  | exitFail (s : StageState n) (i : Fin n)
      (hc : s.threads i = TPhase.crit) (hf : fails i = true) :
      Step fails s ⟨none, Function.update s.threads i TPhase.failed⟩

/-- Initial state: no invocation has entered the `with` block yet. -/
def initState (n : Nat) : StageState n :=
  ⟨none, fun _ => TPhase.waiting⟩

/-- States reachable by interleaving the `n` overlapping invocations. -/
def Reachable {n : Nat} (fails : Fin n → Bool) (s : StageState n) : Prop :=
  Relation.ReflTransGen (Step fails) (initState n) s

/-- The lock invariant: the lock is held by `i` exactly while `i` is inside
the critical section. -/
def LockInv {n : Nat} (s : StageState n) : Prop :=
  ∀ i : Fin n, s.lockHeld = some i ↔ s.threads i = TPhase.crit

theorem lockInv_init (n : Nat) : LockInv (initState n) := by
  intro i
  simp [initState]

theorem lockInv_step {n : Nat} {fails : Fin n → Bool} {s t : StageState n}
    (hs : LockInv s) (hst : Step fails s t) : LockInv t := by
  cases hst with
  | acquire i hw hl =>
      intro j
      constructor
      · intro hj
        simp only [Option.some.injEq] at hj
        subst hj
        simp [Function.update_same]
      · intro hj
        by_cases hij : j = i
        · simp [hij]
        · exfalso
          simp only [Function.update_noteq hij] at hj
          have hjl := (hs j).mpr hj
          rw [hl] at hjl
          exact Option.noConfusion hjl
  | exitOk i hc hf =>
      intro j
      constructor
      · intro hj
        exact Option.noConfusion hj
      · intro hj
        exfalso
        by_cases hij : j = i
        · subst hij
          simp only [Function.update_same] at hj
          exact TPhase.noConfusion hj
        · simp only [Function.update_noteq hij] at hj
          have h1 := (hs j).mpr hj
          have h2 := (hs i).mpr hc
          rw [h1] at h2
          exact hij (Option.some.inj h2)
  | exitFail i hc hf =>
      intro j
      constructor
      · intro hj
        exact Option.noConfusion hj
      · intro hj
        exfalso
        by_cases hij : j = i
        · subst hij
          simp only [Function.update_same] at hj
          exact TPhase.noConfusion hj
        · simp only [Function.update_noteq hij] at hj
          have h1 := (hs j).mpr hj
          have h2 := (hs i).mpr hc
          rw [h1] at h2
          exact hij (Option.some.inj h2)

theorem lockInv_reachable {n : Nat} {fails : Fin n → Bool} {s : StageState n}
    (h : Reachable fails s) : LockInv s := by
  induction h with
  | refl => exact lockInv_init n
  | tail _ hstep ih => exact lockInv_step ih hstep

/-!
## Local sequential pipelines

`SingleProcessPipeline.__init__` asserts `len(shards) == len(devices)`,
moves each shard to its device, then iterates `for i, shard in
enumerate(shards)` adding the shard module and, when `i != len(shards)-1`,
a `ToDevice(devices[i+1])` adapter.  We embed the loop as a simultaneous
structural recursion on the two (equal-length) lists: at each step the
shard is emitted bound to the head device, and the adapter to the next
device is emitted exactly when more shards remain.  A computation unit is
an opaque pure transform `Int → Int`.
-/

/-- A module of the built `nn.Sequential`: either a shard bound to its
device, or a `ToDevice` placement adapter. -/
inductive PipeMod : Type
  | shard : (Int → Int) → Device → PipeMod
  | toDevice : Device → PipeMod

/-- `True` exactly on shard modules (not on placement adapters). -/
def PipeMod.isShard : PipeMod → Bool
  | PipeMod.shard _ _ => true
  | PipeMod.toDevice _ => false

/-- The module-adding loop of `SingleProcessPipeline.__init__` /
`SingleProcessPipelineRPC.__init__`: shard `i` (already moved to
`devices[i]`), followed by `ToDevice(devices[i+1])` unless `i` is the last
index.  The mismatched-length cases are unreachable behind the length
assertion. -/
def buildModules : List (Int → Int) → List Device → List PipeMod
  | [], _ => []
  | _ :: _, [] => []
  | [s], d :: _ => [PipeMod.shard s d]
  | _ :: _ :: _, [_] => []
  | s :: s2 :: ss, d :: d2 :: ds =>
      PipeMod.shard s d :: PipeMod.toDevice d2 :: buildModules (s2 :: ss) (d2 :: ds)

/-- Running one module on a realized value: a shard bound to device `d`
computes on `d` and yields its output on `d`; a `ToDevice` adapter
relocates the value (`x.to(device)`). -/
def runMod (m : PipeMod) (x : TVal) : TVal :=
  match m with
  | PipeMod.shard f d => ⟨f x.v, d⟩
  | PipeMod.toDevice d => ⟨x.v, d⟩

/-- `nn.Sequential.forward`: run the modules strictly in sequence. -/
def runModules (ms : List PipeMod) (x : TVal) : TVal :=
  ms.foldl (fun a m => runMod m a) x

/-- Construction errors (`assert` / precondition failures at build time). -/
inductive CErr : Type
  | assertionError : CErr
deriving DecidableEq, Repr

/-- The constructed `SingleProcessPipeline` (an `nn.Sequential`): the
devices list and the interleaved modules. -/
structure SingleProcessPipeline : Type where
  devices : List Device
  modules : List PipeMod

namespace SingleProcessPipeline

/-- `SingleProcessPipeline.__init__`: fails the length assertion unless
`len(shards) == len(devices)`; otherwise builds the interleaved module
sequence. -/
def init (shards : List (Int → Int)) (devices : List Device) :
    Except CErr SingleProcessPipeline :=
  if shards.length = devices.length then
    Except.ok ⟨devices, buildModules shards devices⟩
  else Except.error CErr.assertionError

/-- Number of shard stages held by the built pipeline. -/
def stageCount (p : SingleProcessPipeline) : Nat :=
  p.modules.countP (fun m => m.isShard)

end SingleProcessPipeline

/-- The alternation the spec describes, written from its indexed wording:
for every `i`, `unit[i]` (bound to `context[i]`) followed by a placement
adapter targeting `context[i+1]` except for the last `i`. -/
def specInterleave (shards : List (Int → Int)) (devices : List Device) : List PipeMod :=
  (List.range shards.length).flatMap (fun i =>
    PipeMod.shard (shards.getD i id) (devices.getD i Device.cpu) ::
      (if i + 1 = shards.length then []
       else [PipeMod.toDevice (devices.getD (i + 1) Device.cpu)]))

/-- The constructed `SingleProcessPipelineRPC`: the same interleaved
sequential pipeline behind the remote-invocation interface, plus the
per-instance lock (implicit) and the devices list used by `forward`. -/
structure SingleProcessPipelineRPC : Type where
  devices : List Device
  modules : List PipeMod

namespace SingleProcessPipelineRPC

/-- `SingleProcessPipelineRPC.__init__`: identical length assertion and
module-building loop, targeting `self.underlying`. -/
def init (shards : List (Int → Int)) (devices : List Device) :
    Except CErr SingleProcessPipelineRPC :=
  if shards.length = devices.length then
    Except.ok ⟨devices, buildModules shards devices⟩
  else Except.error CErr.assertionError

/-- Number of shard stages held by the built pipeline. -/
def stageCount (p : SingleProcessPipelineRPC) : Nat :=
  p.modules.countP (fun m => m.isShard)

/-- `self.underlying(x)` for the RPC wrapper: run the sequential pipeline
inside the critical section (one `compute` event); the wrapped local
pipeline itself cannot raise in this model. -/
def underlyingOp {ε : Type} (p : SingleProcessPipelineRPC) (x : TVal) : Tr ε TVal :=
  ⟨[Ev.compute], Except.ok (runModules p.modules x)⟩

/-- `self.devices[0]`: Python list indexing, raising on an empty list. -/
def headDevice {ε : Type} (p : SingleProcessPipelineRPC) (e : ε) : Tr ε Device :=
  match p.devices with
  | [] => ⟨[], Except.error e⟩
  | d :: _ => ⟨[], Except.ok d⟩

/-- `SingleProcessPipelineRPC.forward`:
`x = x_rref.to_here().to(self.devices[0]); with self._lock: out = self.underlying(x); return out.cpu()`. -/
def forward {ε : Type} (p : SingleProcessPipelineRPC) (eIdx : ε) (x_rref : RRefV) :
    Tr ε TVal :=
  bindTr (toHereOp x_rref) fun x0 =>
  bindTr (headDevice p eIdx) fun d0 =>
  bindTr (toOp x0 d0) fun x =>
  bindTr (withLock (underlyingOp p x)) fun out =>
  cpuOp out

end SingleProcessPipelineRPC

/-!
## The RPC pipeline orchestrator

`RPCPipeline.forward` splits the batch along the leading dimension
(`xs.split(self.split_size, dim=0)`), chains each micro-batch through
`self.shards[:-1]` via `shard.remote().forward(x_rref)` (pending handles
passed without realization), dispatches the last shard with
`rpc_async`, and finally `torch.cat(torch.futures.wait_all(out_futures))`.

A batch is a list of rows; each deployed actor's end-to-end `forward` is
abstracted as a fallible transform on micro-batches (claims about a
single actor's internals are settled on the `RemoteBase*` embeddings
above).  A chained pending handle is an `Except`: a downstream remote
`forward` on a handle whose producer failed fails in turn.  The collective
await is given an explicit completion schedule — the order in which the
runtime finishes the futures — so that order-preservation can be stated
against every completion order.
-/

/-- `torch.split(split_size, dim=0)`: `max(ceil(n/s), 1)` chunks of at
most `s` rows (the final chunk may be smaller; an empty batch yields one
empty chunk), transcribed from ATen's
`num_splits = max((dim_size + split_size - 1) / split_size, 1)`. -/
def splitBatch {α : Type} (s : Nat) (xs : List α) : List (List α) :=
  (List.range (max ((xs.length + s - 1) / s) 1)).map
    (fun i => (xs.drop (i * s)).take s)

/-- All-or-nothing collection of completed futures (`wait_all` raises if
any future raised). -/
def seqE {ε β : Type} : List (Except ε β) → Except ε (List β)
  | [] => Except.ok []
  | Except.error e :: _ => Except.error e
  | Except.ok v :: rs => (seqE rs).map (fun vs => v :: vs)

/-- A buffer of completion slots is fully filled. -/
def seqO {β : Type} : List (Option β) → Option (List β)
  | [] => some []
  | none :: _ => none
  | some v :: os => (seqO os).map (fun vs => v :: vs)

/-- One future completes: its result is deposited in the slot of its
submission index `i` (completing an index that was never submitted is a
no-op). -/
def depositStep {ε β : Type} (futs : List (Except ε β))
    (buf : List (Option (Except ε β))) (i : Nat) : List (Option (Except ε β)) :=
  match futs.get? i with
  | some r => buf.set i (some r)
  | none => buf

/-- The runtime completes the submitted futures in the order given by
`sched`; each completion deposits its result in the slot of the future's
submission index. -/
def collectSched {ε β : Type} (futs : List (Except ε β)) (sched : List Nat) :
    List (Option (Except ε β)) :=
  sched.foldl (depositStep futs) (List.replicate futs.length none)

/-- Batch-level failures of `RPCPipeline.forward`. -/
inductive PErr (ε : Type) : Type
  | indexError : PErr ε
  | catEmpty : PErr ε
  | pending : PErr ε
  | stage : ε → PErr ε
deriving DecidableEq, Repr

/-- `torch.futures.wait_all(out_futures)` under completion schedule
`sched`: blocks until every slot is filled (`pending` marks a schedule
that never completes some future — the await would block forever), then
yields the results in submission order, raising if any micro-batch
raised. -/
def waitAllSched {ε β : Type} (futs : List (Except ε β)) (sched : List Nat) :
    Except (PErr ε) (List β) :=
  match seqO (collectSched futs sched) with
  | none => Except.error PErr.pending
  | some rs =>
      match seqE rs with
      | Except.error e => Except.error (PErr.stage e)
      | Except.ok vs => Except.ok vs

/-- The orchestrator's state: the micro-batch split size and the deployed
shard handles in pipeline order.  `σ` is the shard-handle type: a
fallible micro-batch transform for the `forward` claims, a deployed
`Actor` for the construction claim, a parameter list for the
parameter-collection claim. -/
structure RPCPipeline (σ : Type) : Type where
  split_size : Nat
  shards : List σ

/-- One remote invocation step: `x_rref = shard.remote().forward(x_rref)` —
a pending handle whose producer failed propagates the failure. -/
def stepRRef {ε β : Type} (h : Except ε β) (f : β → Except ε β) : Except ε β :=
  h.bind f

/-- The value a micro-batch's terminal future settles to: the micro-batch
chained through every shard (`shards[:-1]` by `remote`, then `shards[-1]`
by `rpc_async`; the split is internal to `forward`, the composite is the
whole chain). -/
def chainAll {α ε : Type} (shards : List (List α → Except ε (List α))) (m : List α) :
    Except ε (List α) :=
  shards.foldl stepRRef (Except.ok m)

namespace RPCPipeline

/-- `RPCPipeline.forward` under completion schedule `sched`: split into
micro-batches; per micro-batch, chain a pending handle through
`self.shards[:-1]` and dispatch `self.shards[-1]` asynchronously
(`self.shards[-1]` on an empty shard list is an `IndexError`); await all
futures; `torch.cat` the outputs (raising on an empty tensor list). -/
def forwardSched {α ε : Type} (p : RPCPipeline (List α → Except ε (List α)))
    (xs : List α) (sched : List Nat) : Except (PErr ε) (List α) :=
  let ms := splitBatch p.split_size xs
  match p.shards.getLast? with
  | none => if ms.isEmpty then Except.error PErr.catEmpty else Except.error PErr.indexError
  | some lastShard =>
      let futs := ms.map (fun m =>
        stepRRef (p.shards.dropLast.foldl stepRRef (Except.ok m)) lastShard)
      match waitAllSched futs sched with
      | Except.error e => Except.error e
      | Except.ok outs =>
          if outs.isEmpty then Except.error PErr.catEmpty else Except.ok outs.flatten

/-- `RPCPipeline.forward`, nominal schedule (futures complete in
submission order). -/
def forward {α ε : Type} (p : RPCPipeline (List α → Except ε (List α)))
    (xs : List α) : Except (PErr ε) (List α) :=
  forwardSched p xs (List.range (splitBatch p.split_size xs).length)

/-- The state-passing form of `forward`: the method body only reads
`self.split_size` and `self.shards` (locals `out_futures`, `x_rref`,
`z_fut` are per-call); it contains no assignment to `self`, so the
pipeline object is threaded through unchanged. -/
def forwardSt {α ε : Type} (p : RPCPipeline (List α → Except ε (List α)))
    (xs : List α) (sched : List Nat) :
    Except (PErr ε) (List α) × RPCPipeline (List α → Except ε (List α)) :=
  let s := p.split_size
  let sh := p.shards
  (forwardSched ⟨s, sh⟩ xs sched, p)

end RPCPipeline

/-- What the spec's order-preservation sentence denotes: the shard chain
applied to each micro-batch independently, concatenated in split order
(all-or-nothing on failure). -/
def forwardSpec {α ε : Type} (p : RPCPipeline (List α → Except ε (List α)))
    (xs : List α) : Except (PErr ε) (List α) :=
  match seqE ((splitBatch p.split_size xs).map (chainAll p.shards)) with
  | Except.error e => Except.error (PErr.stage e)
  | Except.ok outs => Except.ok outs.flatten

/-!
## RPC pipeline construction and parameter collection
-/

/-- A deployed `RemoteShardActor` handle: the worker it was deployed at
and the `(shard, device)` constructor arguments
(`rpc.remote(worker, remote_base_class, args=(shards[worker], devices[worker]))`). -/
structure Actor (υ : Type) : Type where
  worker : String
  underlying : υ
  device : Device

/-- `workers_to_shards.keys() == workers_to_devices.keys()`: Python dict
key views compare as sets. -/
def keysEq (ks ls : List String) : Bool :=
  ks.all (fun k => ls.contains k) && ls.all (fun k => ks.contains k)

namespace RPCPipeline

/-- `RPCPipeline.__init__`: asserts the two mappings have identical key
sets, then deploys one actor per worker, iterating
`workers_to_shards.keys()` in mapping order.  The mappings are modelled
as association lists in dict insertion order; the device lookup
(`workers_to_devices[worker]`) always succeeds behind the assertion. -/
def init {υ : Type} (w2s : List (String × υ)) (w2d : List (String × Device))
    (split_size : Nat) : Except CErr (RPCPipeline (Actor υ)) :=
  if keysEq (w2s.map Prod.fst) (w2d.map Prod.fst) then
    Except.ok
      ⟨split_size,
       w2s.filterMap (fun wu =>
         (w2d.lookup wu.fst).map (fun d => Actor.mk wu.fst wu.snd d))⟩
  else Except.error CErr.assertionError

end RPCPipeline

/-- A handle (`RRef(p)`) to one underlying parameter value: a fresh
handle identity plus the identity of the parameter it references. -/
structure RRefT : Type where
  rid : Nat
  target : Nat
deriving DecidableEq, Repr

/-- `[RRef(p) for p in self.parameters()]` on one shard: wrap each owned
parameter in a fresh handle, threading the fresh-id counter. -/
def parameterRRefsShard (params : List Nat) (c : Nat) : List RRefT × Nat :=
  match params with
  | [] => ([], c)
  | p :: ps =>
      let rest := parameterRRefsShard ps (c + 1)
      (RRefT.mk c p :: rest.fst, rest.snd)

namespace RPCPipeline

/-- `RPCPipeline.parameter_rrefs`: for every shard in pipeline order,
remotely invoke its `parameter_rrefs()` and `extend` the flat result list
with the realized handles.  A shard is abstracted by the list of (the
identities of) its owned parameter values, in declaration order; `c`
seeds the fresh handle identities for this call. -/
def parameter_rrefs (p : RPCPipeline (List Nat)) (c : Nat) : List RRefT × Nat :=
  p.shards.foldl
    (fun acc sh =>
      let rs := parameterRRefsShard sh acc.snd
      (acc.fst ++ rs.fst, rs.snd))
    (([] : List RRefT), c)

end RPCPipeline

/-!
## Supporting lemmas
-/

theorem depositStep_length {ε β : Type} (futs : List (Except ε β))
    (buf : List (Option (Except ε β))) (i : Nat) :
    (depositStep futs buf i).length = buf.length := by
  rw [depositStep]
  cases h : futs.get? i with
  | none => rfl
  | some r => exact List.length_set buf i (some r)

theorem collect_foldl_length {ε β : Type} (futs : List (Except ε β))
    (sched : List Nat) (buf : List (Option (Except ε β))) :
    (sched.foldl (depositStep futs) buf).length = buf.length := by
  induction sched generalizing buf with
  | nil => rfl
  | cons i sched ih =>
      rw [List.foldl_cons, ih, depositStep_length]

theorem depositStep_get_ne {ε β : Type} (futs : List (Except ε β))
    (buf : List (Option (Except ε β))) (i j : Nat) (hij : i ≠ j) :
    (depositStep futs buf i)[j]? = buf[j]? := by
  rw [depositStep]
  cases h : futs.get? i with
  | none => rfl
  | some r => exact List.getElem?_set_ne hij

theorem collect_foldl_untouched {ε β : Type} (futs : List (Except ε β))
    (sched : List Nat) (buf : List (Option (Except ε β))) (j : Nat)
    (hj : j ∉ sched) :
    (sched.foldl (depositStep futs) buf)[j]? = buf[j]? := by
  induction sched generalizing buf with
  | nil => rfl
  | cons i sched ih =>
      have hji : i ≠ j := fun h => hj (h ▸ List.mem_cons_self i sched)
      have hjs : j ∉ sched := fun h => hj (List.mem_cons_of_mem i h)
      rw [List.foldl_cons, ih _ hjs, depositStep_get_ne futs buf i j hji]

theorem collect_foldl_filled {ε β : Type} (futs : List (Except ε β))
    (sched : List Nat) (buf : List (Option (Except ε β))) (j : Nat)
    (hlen : buf.length = futs.length) (hj : j ∈ sched) (hjf : j < futs.length) :
    (sched.foldl (depositStep futs) buf)[j]? = (futs[j]?).map some := by
  induction sched generalizing buf with
  | nil => exact absurd hj (List.not_mem_nil j)
  | cons i sched ih =>
      rw [List.foldl_cons]
      by_cases hjs : j ∈ sched
      · exact ih _ (by rw [depositStep_length]; exact hlen) hjs
      · have hji : j = i := by
          rcases List.mem_cons.mp hj with h | h
          · exact h
          · exact absurd h hjs
        subst hji
        rw [collect_foldl_untouched futs sched _ j hjs, depositStep]
        have hget : futs.get? j = some futs[j] := by
          rw [List.get?_eq_getElem?]
          exact List.getElem?_eq_getElem hjf
        rw [hget, List.getElem?_set_self (by rw [hlen]; exact hjf),
          List.getElem?_eq_getElem hjf]
        rfl

/-- Under any completion schedule that completes every future (a
permutation of the submission indices), the completion buffer ends fully
filled, each slot holding the result submitted at that index. -/
theorem collectSched_perm {ε β : Type} (futs : List (Except ε β))
    (sched : List Nat) (hperm : sched.Perm (List.range futs.length)) :
    collectSched futs sched = futs.map some := by
  apply List.ext_getElem?
  intro j
  by_cases hjf : j < futs.length
  · have hj : j ∈ sched := hperm.mem_iff.mpr (List.mem_range.mpr hjf)
    rw [collectSched, collect_foldl_filled futs sched _ j (by simp) hj hjf,
      List.getElem?_map]
  · have h1 : (collectSched futs sched)[j]? = none := by
      apply List.getElem?_eq_none
      rw [collectSched, collect_foldl_length]
      simpa using Nat.le_of_not_lt hjf
    have h2 : (futs.map some)[j]? = none := by
      apply List.getElem?_eq_none
      simpa using Nat.le_of_not_lt hjf
    rw [h1, h2]

theorem seqO_map_some {β : Type} (l : List β) : seqO (l.map some) = some l := by
  induction l with
  | nil => rfl
  | cons a l ih => rw [List.map_cons, seqO, ih]; rfl

/-- `wait_all` under any completing schedule equals all-or-nothing
sequencing of the futures in submission order. -/
theorem waitAllSched_perm {ε β : Type} (futs : List (Except ε β))
    (sched : List Nat) (hperm : sched.Perm (List.range futs.length)) :
    waitAllSched futs sched =
      match seqE futs with
      | Except.error e => Except.error (PErr.stage e)
      | Except.ok vs => Except.ok vs := by
  rw [waitAllSched, collectSched_perm futs sched hperm, seqO_map_some]

theorem splitBatch_length_pos {α : Type} (s : Nat) (xs : List α) :
    0 < (splitBatch s xs).length := by
  rw [splitBatch, List.length_map, List.length_range]
  exact Nat.lt_of_lt_of_le Nat.zero_lt_one (Nat.le_max_right _ 1)

theorem splitBatch_ne_nil {α : Type} (s : Nat) (xs : List α) :
    splitBatch s xs ≠ [] := by
  intro h
  have := splitBatch_length_pos s xs
  rw [h] at this
  exact Nat.lt_irrefl 0 this

theorem seqE_ok_length {ε β : Type} (l : List (Except ε β)) (vs : List β)
    (h : seqE l = Except.ok vs) : vs.length = l.length := by
  induction l generalizing vs with
  | nil =>
      rw [seqE] at h
      cases h
      rfl
  | cons r rs ih =>
      cases r with
      | error e =>
          rw [seqE] at h
          exact Except.noConfusion h
      | ok v =>
          rw [seqE] at h
          cases hrec : seqE rs with
          | error e => rw [hrec] at h; exact Except.noConfusion h
          | ok ws =>
              rw [hrec] at h
              have hv : v :: ws = vs := by
                have := h
                simp only [Except.map] at this
                exact Except.ok.inj this
              rw [← hv, List.length_cons, ih ws hrec, List.length_cons]

theorem seqE_error_of_mem {ε β : Type} (l : List (Except ε β)) (e : ε)
    (hmem : Except.error e ∈ l) : ∃ e', seqE l = Except.error e' := by
  induction l with
  | nil => exact absurd hmem (List.not_mem_nil _)
  | cons r rs ih =>
      cases r with
      | error e0 => exact ⟨e0, by rw [seqE]⟩
      | ok v =>
          have hmem' : Except.error e ∈ rs := by
            rcases List.mem_cons.mp hmem with h | h
            · exact absurd h.symm (fun hh => Except.noConfusion hh)
            · exact h
          obtain ⟨e', he'⟩ := ih hmem'
          refine ⟨e', ?_⟩
          rw [seqE, he']
          rfl

theorem chainAll_last {α ε : Type} (shards : List (List α → Except ε (List α)))
    (lastShard : List α → Except ε (List α)) (m : List α)
    (hlast : shards.getLast? = some lastShard) :
    stepRRef (shards.dropLast.foldl stepRRef (Except.ok m)) lastShard =
      chainAll shards m := by
  rw [chainAll]
  conv_rhs => rw [← List.dropLast_append_getLast? lastShard hlast]
  rw [List.foldl_append]
  rfl

/-- The key refinement: under any completing schedule, `forward` equals
the split-order concatenation of the chain applied to each micro-batch —
independent of the completion order. -/
theorem forwardSched_eq_spec {α ε : Type}
    (p : RPCPipeline (List α → Except ε (List α))) (xs : List α)
    (sched : List Nat) (hne : p.shards ≠ [])
    (hperm : sched.Perm (List.range (splitBatch p.split_size xs).length)) :
    RPCPipeline.forwardSched p xs sched = forwardSpec p xs := by
  obtain ⟨lastShard, hlast⟩ :=
    Option.isSome_iff_exists.mp (List.getLast?_isSome.mpr hne)
  rw [RPCPipeline.forwardSched, forwardSpec, hlast]
  have hchain :
      (splitBatch p.split_size xs).map
        (fun m => stepRRef (p.shards.dropLast.foldl stepRRef (Except.ok m)) lastShard) =
      (splitBatch p.split_size xs).map (chainAll p.shards) :=
    List.map_congr_left (fun m _ => chainAll_last p.shards lastShard m hlast)
  simp only [hchain]
  have hlen :
      ((splitBatch p.split_size xs).map (chainAll p.shards)).length =
        (splitBatch p.split_size xs).length := List.length_map _ _
  rw [waitAllSched_perm _ sched (hlen ▸ hperm)]
  cases hseq : seqE ((splitBatch p.split_size xs).map (chainAll p.shards)) with
  | error e => rfl
  | ok outs =>
      have houts : outs.length = (splitBatch p.split_size xs).length := by
        rw [seqE_ok_length _ outs hseq, hlen]
      have hnonempty : outs.isEmpty = false := by
        cases h : outs.isEmpty with
        | false => rfl
        | true =>
            exfalso
            have h0 : outs.length = 0 := List.isEmpty_iff_length_eq_zero.mp h
            rw [houts] at h0
            exact Nat.lt_irrefl 0 (h0 ▸ splitBatch_length_pos p.split_size xs)
      simp only [hnonempty, Bool.false_eq_true, if_false]

theorem flatMap_congr_left {γ δ : Type} (l : List γ) (f g : γ → List δ)
    (h : ∀ a ∈ l, f a = g a) : l.flatMap f = l.flatMap g := by
  induction l with
  | nil => rfl
  | cons a l ih =>
      rw [List.flatMap_cons, List.flatMap_cons, h a (List.mem_cons_self a l),
        ih (fun b hb => h b (List.mem_cons_of_mem a hb))]

/-- The constructor loop produces exactly the alternation the spec
describes, for equal-length inputs. -/
theorem buildModules_eq_specInterleave (shards : List (Int → Int))
    (devices : List Device) (hlen : shards.length = devices.length) :
    buildModules shards devices = specInterleave shards devices := by
  induction shards generalizing devices with
  | nil =>
      rw [buildModules.eq_def]
      cases devices with
      | nil => rfl
      | cons d ds => rfl
  | cons s ss ih =>
      cases devices with
      | nil => exact absurd hlen (by simp)
      | cons d ds =>
          have hlen' : ss.length = ds.length := by
            simpa using hlen
          rw [specInterleave, List.length_cons, List.range_succ_eq_map,
            List.flatMap_cons, List.flatMap_map]
          rw [flatMap_congr_left (List.range ss.length) _
            (fun i =>
              PipeMod.shard (ss.getD i id) (ds.getD i Device.cpu) ::
                (if i + 1 = ss.length then []
                 else [PipeMod.toDevice (ds.getD (i + 1) Device.cpu)]))
            (by
              intro i _
              simp only [Function.comp_apply, Nat.succ_eq_add_one,
                List.getD_cons_succ, Nat.add_right_cancel_iff])]
          have hspec :
              (List.range ss.length).flatMap
                (fun i =>
                  PipeMod.shard (ss.getD i id) (ds.getD i Device.cpu) ::
                    (if i + 1 = ss.length then []
                     else [PipeMod.toDevice (ds.getD (i + 1) Device.cpu)])) =
              specInterleave ss ds := rfl
          rw [hspec]
          cases ss with
          | nil =>
              cases ds with
              | nil => simp [buildModules, specInterleave]
              | cons d2 ds' => exact absurd hlen' (by simp)
          | cons s2 ss' =>
              cases ds with
              | nil => exact absurd hlen' (by simp)
              | cons d2 ds' =>
                  rw [buildModules, ih (d2 :: ds') hlen']
                  simp [List.getD_cons_succ, List.getD_cons_zero]

/-- Equal-length construction yields one shard module per supplied shard. -/
theorem buildModules_countP (shards : List (Int → Int)) (devices : List Device)
    (hlen : shards.length = devices.length) :
    (buildModules shards devices).countP (fun m => m.isShard) = shards.length := by
  induction shards generalizing devices with
  | nil =>
      rw [buildModules.eq_def]
      cases devices with
      | nil => rfl
      | cons d ds => rfl
  | cons s ss ih =>
      cases devices with
      | nil => exact absurd hlen (by simp)
      | cons d ds =>
          have hlen' : ss.length = ds.length := by simpa using hlen
          cases ss with
          | nil =>
              cases ds with
              | nil => rfl
              | cons d2 ds' => exact absurd hlen' (by simp)
          | cons s2 ss' =>
              cases ds with
              | nil => exact absurd hlen' (by simp)
              | cons d2 ds' =>
                  rw [buildModules, List.countP_cons, List.countP_cons,
                    ih (d2 :: ds') hlen']
                  simp [PipeMod.isShard]

/-- Running the built sequence leaves the output bound to the last
context: the final module is the last shard, bound to the last device,
and no adapter follows it. -/
theorem runModules_buildModules_last_dev (shards : List (Int → Int))
    (devices : List Device) (hlen : shards.length = devices.length)
    (hne : devices ≠ []) (x : TVal) :
    devices.getLast? = some (runModules (buildModules shards devices) x).dev := by
  induction shards generalizing devices x with
  | nil =>
      cases devices with
      | nil => exact absurd rfl hne
      | cons d ds => exact absurd hlen (by simp)
  | cons s ss ih =>
      cases devices with
      | nil => exact absurd rfl hne
      | cons d ds =>
          have hlen' : ss.length = ds.length := by simpa using hlen
          cases ss with
          | nil =>
              cases ds with
              | nil => rfl
              | cons d2 ds' => exact absurd hlen' (by simp)
          | cons s2 ss' =>
              cases ds with
              | nil => exact absurd hlen' (by simp)
              | cons d2 ds' =>
                  have hstep :
                      runModules (buildModules (s :: s2 :: ss') (d :: d2 :: ds')) x =
                      runModules (buildModules (s2 :: ss') (d2 :: ds')) ⟨s x.v, d2⟩ := rfl
                  rw [hstep, List.getLast?_cons_cons]
                  exact ih (d2 :: ds') hlen' (by simp) ⟨s x.v, d2⟩

theorem keysEq_iff (ks ls : List String) :
    keysEq ks ls = true ↔ (∀ k, k ∈ ks ↔ k ∈ ls) := by
  rw [keysEq, Bool.and_eq_true, List.all_eq_true, List.all_eq_true]
  constructor
  · rintro ⟨h1, h2⟩ k
    constructor
    · intro hk
      exact List.elem_iff.mp (h1 k hk)
    · intro hk
      exact List.elem_iff.mp (h2 k hk)
  · intro h
    constructor
    · intro k hk
      exact List.elem_iff.mpr ((h k).mp hk)
    · intro k hk
      exact List.elem_iff.mpr ((h k).mpr hk)

theorem lookup_isSome_of_mem {γ : Type} (l : List (String × γ)) (a : String)
    (h : a ∈ l.map Prod.fst) : (l.lookup a).isSome = true := by
  induction l with
  | nil => simp at h
  | cons p ps ih =>
      rw [List.lookup_cons]
      by_cases hpa : a = p.fst
      · simp [hpa]
      · have h2 : a ∈ ps.map Prod.fst := by
          rw [List.map_cons, List.mem_cons] at h
          rcases h with h | h
          · exact absurd h hpa
          · exact h
        have hbeq : (a == p.fst) = false := by simp [hpa]
        simp [hbeq, ih h2]

/-- When every worker of the shard mapping also keys the device mapping,
deployment produces exactly one actor per worker, in mapping order. -/
theorem deployed_workers {υ : Type} (w2s : List (String × υ))
    (w2d : List (String × Device))
    (h : ∀ k, k ∈ w2s.map Prod.fst → k ∈ w2d.map Prod.fst) :
    (w2s.filterMap (fun wu =>
        (w2d.lookup wu.fst).map (fun d => Actor.mk wu.fst wu.snd d))).map
      (fun a => a.worker) = w2s.map Prod.fst := by
  induction w2s with
  | nil => rfl
  | cons wu rest ih =>
      have hmem : wu.fst ∈ w2d.map Prod.fst :=
        h wu.fst (by rw [List.map_cons]; exact List.mem_cons_self _ _)
      obtain ⟨d, hd⟩ := Option.isSome_iff_exists.mp (lookup_isSome_of_mem w2d wu.fst hmem)
      rw [List.filterMap_cons, hd]
      simp only [Option.map_some']
      rw [List.map_cons, List.map_cons]
      rw [ih (fun k hk => h k (by rw [List.map_cons]; exact List.mem_cons_of_mem _ hk))]

theorem parameterRRefsShard_targets (params : List Nat) (c : Nat) :
    (parameterRRefsShard params c).fst.map (fun r => r.target) = params := by
  induction params generalizing c with
  | nil => rfl
  | cons p ps ih =>
      rw [parameterRRefsShard]
      simp only [List.map_cons]
      rw [ih (c + 1)]

theorem parameter_rrefs_foldl (shards : List (List Nat))
    (acc : List RRefT) (c : Nat) :
    ((shards.foldl
        (fun acc sh =>
          let rs := parameterRRefsShard sh acc.snd
          (acc.fst ++ rs.fst, rs.snd))
        (acc, c)).fst).map (fun r => r.target) =
      acc.map (fun r => r.target) ++ shards.flatten := by
  induction shards generalizing acc c with
  | nil => simp
  | cons sh rest ih =>
      rw [List.foldl_cons, ih, List.map_append, parameterRRefsShard_targets,
        List.flatten_cons, List.append_assoc]

/-!
## The claims
-/

/-- C1: for every input batch `xs` and every split size `s ≥ 1`,
`RPCPipeline.forward(xs)` returns the concatenation, along the leading
dimension and in split/submission order, of the shard chain applied to
each micro-batch of `xs`; the order of the output sequence equals
submission order regardless of the order in which the per-micro-batch
futures complete (any completing schedule gives the same result as the
nominal submission-order schedule). -/
theorem c1_forward_order_preservation {α ε : Type}
    (p : RPCPipeline (List α → Except ε (List α))) (xs : List α) (sched : List Nat)
    (_hs : 1 ≤ p.split_size) (hne : p.shards ≠ [])
    (hperm : sched.Perm (List.range (splitBatch p.split_size xs).length)) :
    RPCPipeline.forwardSched p xs sched = forwardSpec p xs ∧
    RPCPipeline.forwardSched p xs sched = RPCPipeline.forward p xs := by
  have h1 := forwardSched_eq_spec p xs sched hne hperm
  have h2 := forwardSched_eq_spec p xs
    (List.range (splitBatch p.split_size xs).length) hne (List.Perm.refl _)
  exact ⟨h1, by rw [RPCPipeline.forward, h1, h2]⟩

/-- First shard of the end-to-end example: multiply each row by two. -/
def fShardA : List Int → Except String (List Int) :=
  fun m => Except.ok (m.map (fun v => 2 * v))

/-- Second shard of the end-to-end example: add one to each row. -/
def fShardB : List Int → Except String (List Int) :=
  fun m => Except.ok (m.map (fun v => v + 1))

/-- Two-shard pipeline with split size 2 (the spec's end-to-end example). -/
def pW : RPCPipeline (List Int → Except String (List Int)) :=
  ⟨2, [fShardA, fShardB]⟩

theorem c1_forward_order_preservation_witness :
    1 ≤ pW.split_size ∧ pW.shards ≠ [] ∧
    ([1, 0] : List Nat).Perm (List.range (splitBatch pW.split_size [1, 2, 3, 4]).length) ∧
    (RPCPipeline.forwardSched pW [1, 2, 3, 4] [1, 0] = forwardSpec pW [1, 2, 3, 4] ∧
     RPCPipeline.forwardSched pW [1, 2, 3, 4] [1, 0] = RPCPipeline.forward pW [1, 2, 3, 4]) :=
  ⟨by decide, by simp [pW], by decide,
   c1_forward_order_preservation pW [1, 2, 3, 4] [1, 0] (by decide) (by simp [pW]) (by decide)⟩

/-- C2: if any single micro-batch's stage chain fails, the entire
`forward` call fails and returns no output: no partial concatenation is
ever returned (all-or-nothing at the collective await). -/
theorem c2_all_or_nothing_failure {α ε : Type}
    (p : RPCPipeline (List α → Except ε (List α))) (xs : List α) (sched : List Nat)
    (hne : p.shards ≠ [])
    (hperm : sched.Perm (List.range (splitBatch p.split_size xs).length))
    (m : List α) (e : ε) (hm : m ∈ splitBatch p.split_size xs)
    (hfail : chainAll p.shards m = Except.error e) :
    (∃ e', RPCPipeline.forwardSched p xs sched = Except.error e') ∧
    ∀ ys, RPCPipeline.forwardSched p xs sched ≠ Except.ok ys := by
  rw [forwardSched_eq_spec p xs sched hne hperm, forwardSpec]
  have hmemE : Except.error e ∈ (splitBatch p.split_size xs).map (chainAll p.shards) :=
    hfail ▸ List.mem_map_of_mem (chainAll p.shards) hm
  obtain ⟨e', he'⟩ := seqE_error_of_mem _ e hmemE
  rw [he']
  exact ⟨⟨PErr.stage e', rfl⟩, fun ys h => Except.noConfusion h⟩

/-- Second shard that raises exactly on the chained second micro-batch
(`fShardA` maps `[3, 4]` to `[6, 8]`). -/
def fShardBad : List Int → Except String (List Int) :=
  fun m => if m == [6, 8] then Except.error "boom" else Except.ok m

/-- Pipeline whose second shard fails on the second micro-batch. -/
def pBadW : RPCPipeline (List Int → Except String (List Int)) :=
  ⟨2, [fShardA, fShardBad]⟩

theorem c2_all_or_nothing_failure_witness :
    pBadW.shards ≠ [] ∧
    ([1, 0] : List Nat).Perm (List.range (splitBatch pBadW.split_size [1, 2, 3, 4]).length) ∧
    [3, 4] ∈ splitBatch pBadW.split_size [1, 2, 3, 4] ∧
    chainAll pBadW.shards [3, 4] = Except.error "boom" ∧
    ((∃ e', RPCPipeline.forwardSched pBadW [1, 2, 3, 4] [1, 0] = Except.error e') ∧
     ∀ ys, RPCPipeline.forwardSched pBadW [1, 2, 3, 4] [1, 0] ≠ Except.ok ys) :=
  ⟨by simp [pBadW], by decide, by decide, rfl,
   c2_all_or_nothing_failure pBadW [1, 2, 3, 4] [1, 0] (by simp [pBadW]) (by decide)
     [3, 4] "boom" (by decide) rfl⟩

/-- C3: per stage instance, at most one execution of the wrapped
computation unit is in progress at any time even under overlapping
concurrent invocations (no two invocations are simultaneously inside the
critical section), and whenever execution inside the critical section
fails, the lock is released before the error propagates (a failed
invocation never holds the lock). -/
theorem c3_mutual_exclusion_and_release {n : Nat} (fails : Fin n → Bool)
    (s : StageState n) (h : Reachable fails s) :
    (∀ i j : Fin n, s.threads i = TPhase.crit → s.threads j = TPhase.crit → i = j) ∧
    (∀ i : Fin n, s.threads i = TPhase.failed → s.lockHeld ≠ some i) := by
  have hinv := lockInv_reachable h
  constructor
  · intro i j hi hj
    have h1 := (hinv i).mpr hi
    have h2 := (hinv j).mpr hj
    rw [h1] at h2
    exact Option.some.inj h2
  · intro i hfail heq
    have hcrit := (hinv i).mp heq
    rw [hfail] at hcrit
    exact TPhase.noConfusion hcrit

/-- Failure pattern for the lock-automaton witness: the first of two
overlapping invocations raises inside the critical section. -/
def failsW : Fin 2 → Bool := fun i => if i = 0 then true else false

/-- Witness state after invocation 0 acquires the lock. -/
def stateW1 : StageState 2 :=
  ⟨some 0, Function.update (initState 2).threads 0 TPhase.crit⟩

/-- Witness state after invocation 0's critical section raises. -/
def stateW2 : StageState 2 :=
  ⟨none, Function.update stateW1.threads 0 TPhase.failed⟩

theorem c3_mutual_exclusion_and_release_witness :
    Reachable failsW stateW2 ∧ stateW2.lockHeld ≠ some 0 := by
  have hstep1 : Step failsW (initState 2) stateW1 :=
    Step.acquire (initState 2) 0 rfl rfl
  have hstep2 : Step failsW stateW1 stateW2 :=
    Step.exitFail stateW1 0 rfl rfl
  have hreach : Reachable failsW stateW2 :=
    Relation.ReflTransGen.tail (Relation.ReflTransGen.tail Relation.ReflTransGen.refl hstep1) hstep2
  exact ⟨hreach,
    (c3_mutual_exclusion_and_release failsW stateW2 hreach).2 0 rfl⟩

/-- Compute-resident shard actor used as concrete input: add five, bound
to `cuda 1`. -/
def mCudaW : RemoteBase String := ⟨fun v => Except.ok (v + 5), Device.cuda 1⟩

/-- Concrete pending input handle holding `7` on the host. -/
def xW : RRefV := ⟨⟨7, Device.cpu⟩⟩

/-- C4 counterexample: in `RemoteBaseCUDARPC.forward` the realization
(`to_here`) does NOT happen before acquiring the lock — the acquire event
strictly precedes the realization event in the call's trace, so the lock
does not wrap only the computation step. -/
theorem c4_compute_resident_counterexample :
    ¬ (posOf Ev.toHere (RemoteBaseCUDARPC.forward mCudaW xW).trace <
       posOf Ev.acquire (RemoteBaseCUDARPC.forward mCudaW xW).trace) := by
  decide

/-- C4 (amended): the compute-resident variant's `forward` acquires the
mutual-exclusion lock first and realizes the pending input inside the
critical section (the lock wraps realization and computation), performs
no relocation before or after the computation (no `toDevice`/`toCPU`
event occurs), and returns the result still bound to the compute
context. -/
theorem c4_compute_resident_order {ε : Type} (m : RemoteBase ε) (x_rref : RRefV)
    (y : Int) (hy : m.f x_rref.get.v = Except.ok y) :
    (RemoteBaseCUDARPC.forward m x_rref).trace =
      [Ev.acquire, Ev.toHere, Ev.compute, Ev.release] ∧
    (RemoteBaseCUDARPC.forward m x_rref).res = Except.ok ⟨y, m.device⟩ := by
  constructor
  · rfl
  · rw [RemoteBaseCUDARPC.forward]
    simp [withLock, bindTr, toHereOp, computeOp, Except.map, hy]

theorem c4_compute_resident_order_witness :
    mCudaW.f xW.get.v = Except.ok 12 ∧
    ((RemoteBaseCUDARPC.forward mCudaW xW).trace =
       [Ev.acquire, Ev.toHere, Ev.compute, Ev.release] ∧
     (RemoteBaseCUDARPC.forward mCudaW xW).res = Except.ok ⟨12, mCudaW.device⟩) :=
  ⟨rfl, c4_compute_resident_order mCudaW xW 12 rfl⟩

/-- C5: the host-relocating actor variant and the local pipeline stage
perform `forward` in exactly this order: realize the pending input,
relocate it to the bound (first) context, acquire the lock, run the
wrapped computation, release the lock, relocate the result to the
host-accessible context, and return it (result bound to `cpu`). -/
theorem c5_host_relocating_order {ε : Type} (m : RemoteBase ε)
    (p : SingleProcessPipelineRPC) (eIdx : ε) (x_rref : RRefV) (y : Int)
    (hy : m.f x_rref.get.v = Except.ok y) (d0 : Device) (ds : List Device)
    (hdev : p.devices = d0 :: ds) :
    ((RemoteBaseCPURPC.forward m x_rref).trace =
       [Ev.toHere, Ev.toDevice m.device, Ev.acquire, Ev.compute, Ev.release, Ev.toCPU] ∧
     (RemoteBaseCPURPC.forward m x_rref).res = Except.ok ⟨y, Device.cpu⟩) ∧
    ((SingleProcessPipelineRPC.forward p eIdx x_rref).trace =
       [Ev.toHere, Ev.toDevice d0, Ev.acquire, Ev.compute, Ev.release, Ev.toCPU] ∧
     (SingleProcessPipelineRPC.forward p eIdx x_rref).res =
       Except.ok ⟨(runModules p.modules ⟨x_rref.get.v, d0⟩).v, Device.cpu⟩) := by
  constructor
  · constructor
    · rw [RemoteBaseCPURPC.forward]
      simp [withLock, bindTr, toHereOp, toOp, cpuOp, computeOp, Except.map, hy]
    · rw [RemoteBaseCPURPC.forward]
      simp [withLock, bindTr, toHereOp, toOp, cpuOp, computeOp, Except.map, hy]
  · constructor
    · rw [SingleProcessPipelineRPC.forward]
      simp [withLock, bindTr, toHereOp, toOp, cpuOp,
        SingleProcessPipelineRPC.underlyingOp, SingleProcessPipelineRPC.headDevice, hdev]
    · rw [SingleProcessPipelineRPC.forward]
      simp [withLock, bindTr, toHereOp, toOp, cpuOp,
        SingleProcessPipelineRPC.underlyingOp, SingleProcessPipelineRPC.headDevice, hdev]

/-- Host-relocating shard actor as concrete input: add five, bound to
`cuda 2`. -/
def mCpuW : RemoteBase String := ⟨fun v => Except.ok (v + 5), Device.cuda 2⟩

/-- Concrete one-stage local pipeline stage on `cuda 0`. -/
def spRpcW : SingleProcessPipelineRPC :=
  ⟨[Device.cuda 0], buildModules [fun v => 2 * v] [Device.cuda 0]⟩

theorem c5_host_relocating_order_witness :
    mCpuW.f xW.get.v = Except.ok 12 ∧ spRpcW.devices = Device.cuda 0 :: [] ∧
    (((RemoteBaseCPURPC.forward mCpuW xW).trace =
        [Ev.toHere, Ev.toDevice mCpuW.device, Ev.acquire, Ev.compute, Ev.release, Ev.toCPU] ∧
      (RemoteBaseCPURPC.forward mCpuW xW).res = Except.ok ⟨12, Device.cpu⟩) ∧
     ((SingleProcessPipelineRPC.forward spRpcW "idx" xW).trace =
        [Ev.toHere, Ev.toDevice (Device.cuda 0), Ev.acquire, Ev.compute, Ev.release, Ev.toCPU] ∧
      (SingleProcessPipelineRPC.forward spRpcW "idx" xW).res =
        Except.ok ⟨(runModules spRpcW.modules ⟨xW.get.v, Device.cuda 0⟩).v, Device.cpu⟩)) :=
  ⟨rfl, rfl, c5_host_relocating_order mCpuW spRpcW "idx" xW 12 rfl (Device.cuda 0) [] rfl⟩

/-- C6: construction of the local pipelines succeeds exactly when the
shards list and the devices list have equal length (otherwise the
assertion fails), and on success the pipeline holds as many shard stages
as supplied shards; construction of `RPCPipeline` succeeds exactly when
the key sets of the two location mappings are identical, and on success
it holds one deployed actor handle per location, in mapping order. -/
theorem c6_construction {υ : Type} (shards : List (Int → Int)) (devices : List Device)
    (w2s : List (String × υ)) (w2d : List (String × Device)) (split_size : Nat) :
    ((SingleProcessPipeline.init shards devices).isOk = true ↔
        shards.length = devices.length) ∧
    (∀ p, SingleProcessPipeline.init shards devices = Except.ok p →
        p.stageCount = shards.length) ∧
    ((SingleProcessPipelineRPC.init shards devices).isOk = true ↔
        shards.length = devices.length) ∧
    (∀ p, SingleProcessPipelineRPC.init shards devices = Except.ok p →
        p.stageCount = shards.length) ∧
    ((RPCPipeline.init w2s w2d split_size).isOk = true ↔
        ∀ k, k ∈ w2s.map Prod.fst ↔ k ∈ w2d.map Prod.fst) ∧
    (∀ q, RPCPipeline.init w2s w2d split_size = Except.ok q →
        q.shards.map (fun a => a.worker) = w2s.map Prod.fst) := by
  refine ⟨?_, ?_, ?_, ?_, ?_, ?_⟩
  · rw [SingleProcessPipeline.init]
    by_cases h : shards.length = devices.length
    · simp [h, Except.isOk, Except.toBool]
    · simp [h, Except.isOk, Except.toBool]
  · intro p hp
    rw [SingleProcessPipeline.init] at hp
    by_cases h : shards.length = devices.length
    · rw [if_pos h] at hp
      cases hp
      exact buildModules_countP shards devices h
    · rw [if_neg h] at hp
      exact Except.noConfusion hp
  · rw [SingleProcessPipelineRPC.init]
    by_cases h : shards.length = devices.length
    · simp [h, Except.isOk, Except.toBool]
    · simp [h, Except.isOk, Except.toBool]
  · intro p hp
    rw [SingleProcessPipelineRPC.init] at hp
    by_cases h : shards.length = devices.length
    · rw [if_pos h] at hp
      cases hp
      exact buildModules_countP shards devices h
    · rw [if_neg h] at hp
      exact Except.noConfusion hp
  · rw [RPCPipeline.init]
    by_cases h : keysEq (w2s.map Prod.fst) (w2d.map Prod.fst) = true
    · rw [if_pos h]
      simp only [Except.isOk]
      exact ⟨fun _ => (keysEq_iff _ _).mp h, fun _ => rfl⟩
    · rw [if_neg h]
      simp only [Except.isOk]
      constructor
      · intro hfalse
        exact Bool.noConfusion hfalse
      · intro hk
        exact absurd ((keysEq_iff _ _).mpr hk) h
  · intro q hq
    rw [RPCPipeline.init] at hq
    by_cases h : keysEq (w2s.map Prod.fst) (w2d.map Prod.fst) = true
    · rw [if_pos h] at hq
      cases hq
      exact deployed_workers w2s w2d (fun k hk => ((keysEq_iff _ _).mp h k).mp hk)
    · rw [if_neg h] at hq
      exact Except.noConfusion hq

/-- A concrete computation unit for witnesses: multiply by two. -/
def gDouble : Int → Int := fun v => 2 * v

/-- The local pipeline that one-shard construction yields. -/
def spW : SingleProcessPipeline := ⟨[Device.cpu], buildModules [gDouble] [Device.cpu]⟩

/-- The deployed RPC pipeline that one-worker construction yields. -/
def qW : RPCPipeline (Actor Nat) := ⟨1, [⟨"a", 0, Device.cpu⟩]⟩

theorem c6_construction_witness :
    (SingleProcessPipeline.init [gDouble] [Device.cpu]).isOk = true ∧
    spW.stageCount = 1 ∧
    (RPCPipeline.init [("a", (0 : Nat))] [("a", Device.cpu)] 1).isOk = true ∧
    qW.shards.map (fun a => a.worker) = ["a"] := by
  have h := c6_construction [gDouble] [Device.cpu]
    [("a", (0 : Nat))] [("a", Device.cpu)] 1
  refine ⟨h.1.mpr rfl, ?_, ?_, ?_⟩
  · exact h.2.1 spW rfl
  · exact h.2.2.2.2.1.mpr (fun k => Iff.rfl)
  · exact h.2.2.2.2.2 qW rfl

/-- C7: for equal-length lists of `n` units and `n` contexts, local
sequential construction builds a pipeline whose modules alternate
`unit[i]` then a placement adapter targeting `context[i+1]` for every
`i` except the last (`n` units interleaved with `n-1` adapters), and its
forward pass (`runModules`, the strict in-order fold of `nn.Sequential`)
leaves the output bound to the last context. -/
theorem c7_interleaving_and_last_context (shards : List (Int → Int))
    (devices : List Device) (hlen : shards.length = devices.length)
    (hne : devices ≠ []) (x : TVal) :
    buildModules shards devices = specInterleave shards devices ∧
    devices.getLast? = some (runModules (buildModules shards devices) x).dev :=
  ⟨buildModules_eq_specInterleave shards devices hlen,
   runModules_buildModules_last_dev shards devices hlen hne x⟩

/-- A second concrete computation unit for witnesses: add one. -/
def gInc : Int → Int := fun v => v + 1

theorem c7_interleaving_and_last_context_witness :
    ([gDouble, gInc].length = [Device.cpu, Device.cuda 0].length) ∧
    ([Device.cpu, Device.cuda 0] ≠ ([] : List Device)) ∧
    (buildModules [gDouble, gInc] [Device.cpu, Device.cuda 0] =
       specInterleave [gDouble, gInc] [Device.cpu, Device.cuda 0] ∧
     [Device.cpu, Device.cuda 0].getLast? =
       some (runModules (buildModules [gDouble, gInc] [Device.cpu, Device.cuda 0])
         ⟨3, Device.cpu⟩).dev) :=
  ⟨rfl, by simp,
   c7_interleaving_and_last_context [gDouble, gInc] [Device.cpu, Device.cuda 0]
     rfl (by simp) ⟨3, Device.cpu⟩⟩

/-- C8: parameter collection visits every shard in pipeline order and
appends the realized handles to one flat ordered sequence — the handles
reference exactly the shards' parameters in shard order then per-shard
declaration order — and two collections (with different fresh handle
identities `c₁`, `c₂`) reference the same underlying parameter values. -/
theorem c8_parameter_collection (p : RPCPipeline (List Nat)) (c c1 c2 : Nat) :
    (RPCPipeline.parameter_rrefs p c).fst.map (fun r => r.target) = p.shards.flatten ∧
    (RPCPipeline.parameter_rrefs p c1).fst.map (fun r => r.target) =
      (RPCPipeline.parameter_rrefs p c2).fst.map (fun r => r.target) := by
  have key : ∀ c0 : Nat,
      (RPCPipeline.parameter_rrefs p c0).fst.map (fun r => r.target) =
        p.shards.flatten := by
    intro c0
    rw [RPCPipeline.parameter_rrefs, parameter_rrefs_foldl]
    rfl
  exact ⟨key c, by rw [key c1, key c2]⟩

/-- C9: a pipeline constructed with zero shards fails `forward` on every
input and under every completion schedule — the dispatch to the last
shard indexes an empty sequence (`IndexError`) — instead of returning the
input batch unchanged. -/
theorem c9_empty_shards_forward_fails {α ε : Type}
    (p : RPCPipeline (List α → Except ε (List α))) (hempty : p.shards = [])
    (xs : List α) (sched : List Nat) :
    RPCPipeline.forwardSched p xs sched = Except.error PErr.indexError ∧
    RPCPipeline.forward p xs = Except.error PErr.indexError := by
  have key : ∀ sc : List Nat,
      RPCPipeline.forwardSched p xs sc = Except.error PErr.indexError := by
    intro sc
    rw [RPCPipeline.forwardSched, hempty]
    have hms : (splitBatch p.split_size xs).isEmpty = false := by
      cases h : splitBatch p.split_size xs with
      | nil => exact absurd h (splitBatch_ne_nil _ _)
      | cons m ms => rfl
    simp [hms]
  exact ⟨key sched, key _⟩

/-- The zero-shard pipeline. -/
def pEmptyW : RPCPipeline (List Int → Except String (List Int)) := ⟨1, []⟩

theorem c9_empty_shards_forward_fails_witness :
    pEmptyW.shards = [] ∧
    (RPCPipeline.forwardSched pEmptyW [5] [0] = Except.error PErr.indexError ∧
     RPCPipeline.forward pEmptyW [5] = Except.error PErr.indexError) :=
  ⟨rfl, c9_empty_shards_forward_fails pEmptyW rfl [5] [0]⟩

/-- C10: `forward` leaves the pipeline's own state unchanged — after the
call (successful or failed) the stored shard-handle sequence and the
split size are identical to their values before, and the result is
exactly what the stateless reading computes (all per-call handles and
futures are local). -/
theorem c10_forward_frame {α ε : Type}
    (p : RPCPipeline (List α → Except ε (List α))) (xs : List α) (sched : List Nat) :
    (RPCPipeline.forwardSt p xs sched).snd.shards = p.shards ∧
    (RPCPipeline.forwardSt p xs sched).snd.split_size = p.split_size ∧
    (RPCPipeline.forwardSt p xs sched).fst = RPCPipeline.forwardSched p xs sched :=
  ⟨rfl, rfl, rfl⟩
